import Mathlib

/-!
Verification of the threaded TCP echo server (`server.c`) against its
natural-language specification.  The C functions are shallowly embedded:
buffers are lists of byte values (`Nat < 256`), `size_t` arithmetic is `Nat`
modulo `2 ^ 64`, `ssize_t` results are `Int`, and the results of the
`send`/`recv` system calls are supplied by an explicit oracle list, so that
every control path of the C loops is represented.
-/

namespace EchoServer

/-- Constant `BUF_SIZE` from server.c. -/
def BUF_SIZE : Nat := 4096

/-- Constant `DEFAULT_PORT` from server.c. -/
def DEFAULT_PORT : Int := 5555

/-- Number of values of the C type `size_t` (64-bit). -/
def U64 : Nat := 2 ^ 64

/-- Reinterpret a `size_t` value (a natural number below `2 ^ 64`) as the C
`ssize_t` it is cast to by `return (ssize_t)total;`. -/
def toSsize (t : Nat) : Int :=
  if t < 2 ^ 63 then (t : Int) else (t : Int) - (U64 : Int)

/-- Function `toupper` from `<ctype.h>` in the default "C" locale, applied to an
`unsigned char` value: ASCII `'a'`..`'z'` (97..122) maps to the corresponding
`'A'`..`'Z'` (subtract 32); every other byte value is returned unchanged. -/
def toupperByte (b : Nat) : Nat :=
  if 97 ≤ b ∧ b ≤ 122 then b - 32 else b

/-- Function `to_uppercase(buf, n)` from server.c: the loop
`for (i = 0; i < n; i++) buf[i] = toupper(buf[i]);` replaces each of the
first `n` bytes of the buffer by its `toupper` image, in place, and leaves
the rest of the buffer untouched. -/
def to_uppercase : List Nat → Nat → List Nat
  | [], _ => []
  | b :: rest, 0 => b :: rest
  | b :: rest, n + 1 => toupperByte b :: to_uppercase rest n

/-- Result of one `send(2)` call as observed by `send_all`:
`ok n` is a return value `n ≥ 0` (the byte count transferred), `zero` is the
return value `0`, `eintr` is `-1` with `errno == EINTR`, and `err` is `-1`
with any other `errno`. -/
inductive SendRes where
  | ok (n : Nat)
  | zero
  | eintr
  | err
  deriving DecidableEq

/-- The loop of `send_all(fd, buf, len)` from server.c, run from a given
value of `total` against an oracle listing the results of the successive
`send` calls.  Mirrors the C control flow exactly:

* loop condition `total < len` checked first;
* `n < 0` with `errno == EINTR` restarts the iteration;
* `n < 0` with another `errno` FALLS THROUGH (server.c has no `break` or
  `return -1` here) to `total += (size_t)n`, which adds `2 ^ 64 - 1`
  modulo `2 ^ 64`;
* `n == 0` breaks out of the loop;
* otherwise `total += (size_t)n`.

Returns `none` when the oracle is exhausted while the loop still runs,
otherwise `some (total, log)` with the final value of `total` and the log
of successful transfers as `(offset, count)` pairs, the offset being the
value of `total` at the time of the call (the `send` call reads from
`p + total`). -/
def sendAllGo (len : Nat) : Nat → List SendRes → Option (Nat × List (Nat × Nat))
  | total, [] => if len ≤ total then some (total, []) else none
  | total, o :: rest =>
    if len ≤ total then some (total, [])
    else
      match o with
      | .eintr => sendAllGo len total rest
      | .err => sendAllGo len ((total + (U64 - 1)) % U64) rest
      | .zero => some (total, [])
      | .ok n =>
        if n = 0 then some (total, [])
        else (sendAllGo len ((total + n) % U64) rest).map
          (fun r => (r.1, (total, n) :: r.2))

/-- Function `send_all(fd, buf, len)` from server.c: runs the loop from `total = 0`
and casts the final `total` to `ssize_t`. -/
def send_all (len : Nat) (os : List SendRes) : Option Int :=
  (sendAllGo len 0 os).map (fun r => toSsize r.1)

/-- An oracle under which every `send` call either transfers at least one
byte (and at most the number of bytes requested at that point) or is
interrupted (`EINTR`), until the loop has written all `len` bytes. -/
def goodOracle (len : Nat) : Nat → List SendRes → Bool
  | total, [] => decide (len ≤ total)
  | total, o :: rest =>
    if len ≤ total then true
    else
      match o with
      | .eintr => goodOracle len total rest
      | .ok n => decide (1 ≤ n) && decide (n ≤ len - total) && goodOracle len (total + n) rest
      | _ => false

/-- A transfer log `[(o₁,k₁), (o₂,k₂), …]` tiles the byte range from `o`
to `len`: each transfer starts at the first byte not yet written, transfers
at least one byte, and the transfers jointly cover `o, …, len - 1` once
each, in order. -/
def tilesFrom (len : Nat) : Nat → List (Nat × Nat) → Bool
  | o, [] => decide (o = len)
  | o, a :: rest => decide (a.1 = o) && decide (1 ≤ a.2) && tilesFrom len (o + a.2) rest

/-- Result of one `recv(2)` call as observed by `client_thread`:
`ok data` is a positive return with the bytes read, `zero` is the return
value `0` (orderly peer shutdown), `eintr` is `-1` with `errno == EINTR`,
and `err` is `-1` with any other `errno`. -/
inductive RecvRes where
  | ok (data : List Nat)
  | zero
  | eintr
  | err
  deriving DecidableEq

/-- Observable events of one connection handler (`client_thread`). -/
inductive HEv where
  | incremented
  | recvd (n : Nat)
  | sendCall (w : Int)
  | recvErrLogged
  | sendErrLogged
  | closedFd
  | decremented
  deriving DecidableEq

/-- The `while (1)` loop of `client_thread` in server.c together with the
finalization that follows it, run against an oracle that gives, for each
`recv` call, its result and (when a send happens this cycle) the oracle for
that cycle's `send_all`.  Mirrors the C control flow:

* `r < 0` with `errno == EINTR` restarts the iteration;
* `r < 0` otherwise logs (`perror`) and breaks;
* `r == 0` breaks (orderly shutdown, no error, no write);
* `r > 0` uppercases the `r` bytes read and calls
  `send_all(fd, buf, r)`; a negative result logs and breaks, otherwise
  the loop continues.

After the loop: `close(fd); dec_clients();`.  Returns `none` when the
oracle is exhausted while the loop still runs. -/
def handlerLoop : List (RecvRes × List SendRes) → Option (List HEv)
  | [] => none
  | (r, s) :: rest =>
    match r with
    | .eintr => handlerLoop rest
    | .err => some [.recvErrLogged, .closedFd, .decremented]
    | .zero => some [.closedFd, .decremented]
    | .ok data =>
      if data.length = 0 then some [.closedFd, .decremented]
      else
        match send_all data.length s with
        | none => none
        | some w =>
          if w < 0 then
            some [.recvd data.length, .sendCall w, .sendErrLogged, .closedFd, .decremented]
          else
            (handlerLoop rest).map
              (fun evs => .recvd data.length :: .sendCall w :: evs)

/-- Function `client_thread` in server.c: `inc_clients()` precedes the loop. -/
def handlerRun (oracle : List (RecvRes × List SendRes)) : Option (List HEv) :=
  (handlerLoop oracle).map (fun evs => .incremented :: evs)

/-- Effect of one handler event on `g_connected_clients`. -/
def evDelta : HEv → Int
  | .incremented => 1
  | .decremented => -1
  | _ => 0

/-- Net effect of a handler event sequence on `g_connected_clients`. -/
def counterDelta (evs : List HEv) : Int :=
  (evs.map evDelta).sum

/-- Observable startup events of `main` in server.c (the `die` paths for
failing `socket`/`bind`/`listen` calls are not modelled: the claims below
concern the argument check, which precedes them all). -/
inductive MainEv where
  | sigpipeIgnored
  | usageExitFailure
  | socketCreated
  | boundLoopback (port : Int)
  | listening
  deriving DecidableEq

/-- The startup sequence of `main` in server.c, given the `atoi` value of
`argv[1]` when `argc >= 2`: `signal(SIGPIPE, SIG_IGN)` is the first
statement; then the port check `port <= 0 || port > 65535` exits with a
usage message and `EXIT_FAILURE` (exit status 1) before any socket is
created; otherwise `socket`/`bind`/`listen` proceed with that port.
Returns the event list and the exit status (`some 1` when the process
exited at the usage check, `none` when it reached the accept loop). -/
def mainStartup (arg : Option Int) : List MainEv × Option Nat :=
  match arg with
  | none =>
    (MainEv.sigpipeIgnored ::
      [MainEv.socketCreated, MainEv.boundLoopback DEFAULT_PORT, MainEv.listening], none)
  | some p =>
    if p ≤ 0 ∨ 65535 < p then
      (MainEv.sigpipeIgnored :: [MainEv.usageExitFailure], some 1)
    else
      (MainEv.sigpipeIgnored ::
        [MainEv.socketCreated, MainEv.boundLoopback p, MainEv.listening], none)

/-- Disposition of a signal in the process. -/
inductive SigDisposition where
  | dfl
  | ign
  deriving DecidableEq

/-- Outcome, for the process, of a `send` on a connection whose peer has
already closed. -/
inductive PeerClosedSendOutcome where
  | processTerminated
  | errorReturn
  deriving DecidableEq

/-- Modelled from the spec: POSIX SIGPIPE semantics, which are environment
behaviour and not code of this repository.  A `send` to a peer that has
closed the connection raises SIGPIPE: under the default disposition the
signal terminates the whole process; when the process ignores SIGPIPE the
`send` instead fails with an error return (`-1`, `errno == EPIPE`) seen
only by the calling thread. -/
def peerClosedSend (d : SigDisposition) : PeerClosedSendOutcome :=
  match d with
  | .dfl => .processTerminated
  | .ign => .errorReturn

/-! ### The shared counter `g_connected_clients`

`inc_clients` and `dec_clients` are embedded at the granularity of their
individual memory and mutex operations, so that arbitrary interleavings of
handler threads can be examined.  Each handler thread executes, for its
counter effects, `inc_clients()` followed by `dec_clients()` (the I/O loop
between them never touches the counter).  Program counters of one thread:

*  0: `pthread_mutex_lock` in `inc_clients` (blocks while the mutex is held)
*  1: read `g_connected_clients` into a register (first half of `g++`)
*  2: write register `+ 1` back (second half of `g++`)
*  3: `int now = g_connected_clients;` (snapshot, still inside the lock)
*  4: `pthread_mutex_unlock`
*  5: `fprintf(stderr, …, now)` (report, after the unlock)
*  6-11: the same six steps for `dec_clients`, writing register `- 1`
* 12: thread finished. -/

/-- Per-thread state: program counter, the register holding the read half
of the read-modify-write, and the `now` local of `inc_clients`/`dec_clients`. -/
structure CThread where
  pc : Nat
  reg : Int
  now : Int
  deriving DecidableEq

/-- Whole-machine state: the counter `g_connected_clients`, the holder of
`g_clients_mtx` (if any), the handler threads, and the sequence of values
reported to stderr so far (with the reporting thread). -/
structure CState where
  g : Int
  owner : Option Nat
  threads : List CThread
  reports : List (Nat × Int)
  deriving DecidableEq

/-- One machine step by thread `t`: executes `t`'s next operation if it is
enabled (a `pthread_mutex_lock` by `t` blocks while another thread holds
the mutex, leaving the state unchanged), as described in the program
counter table above. -/
def stepThread (s : CState) (t : Nat) : CState :=
  match s.threads[t]? with
  | none => s
  | some th =>
    match th.pc with
    | 0 =>
      if s.owner = none then
        { s with owner := some t, threads := s.threads.set t { th with pc := 1 } }
      else s
    | 1 => { s with threads := s.threads.set t { th with pc := 2, reg := s.g } }
    | 2 => { s with g := th.reg + 1, threads := s.threads.set t { th with pc := 3 } }
    | 3 => { s with threads := s.threads.set t { th with pc := 4, now := s.g } }
    | 4 => { s with owner := none, threads := s.threads.set t { th with pc := 5 } }
    | 5 =>
      { s with reports := s.reports ++ [(t, th.now)],
               threads := s.threads.set t { th with pc := 6 } }
    | 6 =>
      if s.owner = none then
        { s with owner := some t, threads := s.threads.set t { th with pc := 7 } }
      else s
    | 7 => { s with threads := s.threads.set t { th with pc := 8, reg := s.g } }
    | 8 => { s with g := th.reg - 1, threads := s.threads.set t { th with pc := 9 } }
    | 9 => { s with threads := s.threads.set t { th with pc := 10, now := s.g } }
    | 10 => { s with owner := none, threads := s.threads.set t { th with pc := 11 } }
    | 11 =>
      { s with reports := s.reports ++ [(t, th.now)],
               threads := s.threads.set t { th with pc := 12 } }
    | _ => s

/-- Initial state with `n` handler threads: `g_connected_clients = 0`
(its static initializer), the mutex free, nothing reported. -/
def initState (n : Nat) : CState :=
  ⟨0, none, List.replicate n ⟨0, 0, 0⟩, []⟩

/-- Run the machine under a schedule (an arbitrary interleaving, given as
the sequence of thread ids taking steps). -/
def exec (s : CState) (sched : List Nat) : CState :=
  sched.foldl stepThread s

/-- A thread at this program counter has performed the increment of
`g_connected_clients` (the write half of `g++` in `inc_clients`) but not
yet the decrement (the write half of `g--` in `dec_clients`). -/
def activeAt (pc : Nat) : Bool :=
  decide (3 ≤ pc ∧ pc ≤ 8)

/-- Number of threads that have incremented the counter but not yet
decremented it. -/
def activeCount (s : CState) : Nat :=
  s.threads.countP (fun th => activeAt th.pc)

/-- A thread at this program counter holds `g_clients_mtx`. -/
def midPc (pc : Nat) : Prop :=
  (1 ≤ pc ∧ pc ≤ 4) ∨ (7 ≤ pc ∧ pc ≤ 10)

instance (pc : Nat) : Decidable (midPc pc) := by
  unfold midPc; infer_instance

/-- Contribution of a thread at this program counter to the counter value:
`1` between its increment write and its decrement write, else `0`. -/
def contrib (pc : Nat) : Int :=
  if 3 ≤ pc ∧ pc ≤ 8 then 1 else 0

/-- Sum of the contributions of all threads. -/
def gsum (ths : List CThread) : Int :=
  (ths.map (fun th => contrib th.pc)).sum

/-- All handler threads have finished both counter mutations. -/
def allDone (s : CState) : Prop :=
  ∀ th ∈ s.threads, th.pc = 12

/-- Mutual-exclusion part of the machine invariant: when the mutex is
free no thread is inside a critical section; when thread `t` holds it,
`t` is the unique thread inside one, its register holds the value of `g`
it read (before its write), and its snapshot `now` equals `g` once taken
(after its write, still under the lock). -/
def OwnerInv (s : CState) : Prop :=
  match s.owner with
  | none => ∀ (u : Nat) (th₂ : CThread), s.threads[u]? = some th₂ → ¬ midPc th₂.pc
  | some t =>
    ∃ th, s.threads[t]? = some th ∧ midPc th.pc ∧
      (∀ u, u ≠ t → ∀ (th₂ : CThread), s.threads[u]? = some th₂ → ¬ midPc th₂.pc) ∧
      (th.pc = 2 → th.reg = s.g) ∧ (th.pc = 8 → th.reg = s.g) ∧
      (th.pc = 4 → th.now = s.g) ∧ (th.pc = 10 → th.now = s.g)

/-- The machine invariant: the counter equals the summed contributions,
program counters stay in range, and mutual exclusion holds. -/
def Inv (s : CState) : Prop :=
  s.g = gsum s.threads ∧
  (∀ th ∈ s.threads, th.pc ≤ 12) ∧
  OwnerInv s

/-! ## Helper lemmas -/

lemma length_to_uppercase (buf : List Nat) (n : Nat) :
    (to_uppercase buf n).length = buf.length := by
  induction buf generalizing n with
  | nil => simp [to_uppercase]
  | cons b rest ih =>
    cases n with
    | zero => simp [to_uppercase]
    | succ m => simp [to_uppercase, ih]

lemma getD_to_uppercase_lt (buf : List Nat) (n i : Nat) (hn : i < n) :
    (to_uppercase buf n).getD i 0 = toupperByte (buf.getD i 0) := by
  induction buf generalizing n i with
  | nil => simp [to_uppercase, toupperByte]
  | cons b rest ih =>
    cases n with
    | zero => omega
    | succ m =>
      cases i with
      | zero => simp [to_uppercase]
      | succ j => simpa [to_uppercase] using ih m j (by omega)

lemma getD_to_uppercase_ge (buf : List Nat) (n i : Nat) (hn : n ≤ i) :
    (to_uppercase buf n).getD i 0 = buf.getD i 0 := by
  induction buf generalizing n i with
  | nil => simp [to_uppercase]
  | cons b rest ih =>
    cases n with
    | zero => simp [to_uppercase]
    | succ m =>
      cases i with
      | zero => omega
      | succ j => simpa [to_uppercase] using ih m j (by omega)

/-! ## C2 -/

set_option maxRecDepth 4096 in
/-- C2: `to_uppercase` is length-preserving and position-preserving: byte
`i` of the output is the `toupper` image of byte `i` of the input when
`i < n` (the bytes read) and is byte `i` of the input unchanged when
`i ≥ n`; and as a pure byte function, for every byte value `b < 256`,
`toupper` maps `'a'..'z'` to the corresponding `'A'..'Z'` and leaves every
other byte value unchanged. -/
theorem C2_to_uppercase_correct (buf : List Nat) (n i : Nat) (_hi : i < buf.length) :
    (to_uppercase buf n).length = buf.length ∧
    (i < n → (to_uppercase buf n).getD i 0 = toupperByte (buf.getD i 0)) ∧
    (n ≤ i → (to_uppercase buf n).getD i 0 = buf.getD i 0) ∧
    (∀ b : Nat, b < 256 →
      ((97 ≤ b ∧ b ≤ 122) →
        toupperByte b = b - 32 ∧ 65 ≤ toupperByte b ∧ toupperByte b ≤ 90) ∧
      (¬(97 ≤ b ∧ b ≤ 122) → toupperByte b = b)) := by
  refine ⟨length_to_uppercase buf n,
          fun hn => getD_to_uppercase_lt buf n i hn,
          fun hn => getD_to_uppercase_ge buf n i hn, ?_⟩
  decide

/-- Witness for C2 at buffer `"h!È"` (`[104, 33, 200]`), `n = 2`, `i = 0`. -/
theorem C2_witness :
    (to_uppercase [104, 33, 200] 2).length = ([104, 33, 200] : List Nat).length ∧
    (0 < 2 → (to_uppercase [104, 33, 200] 2).getD 0 0
      = toupperByte (([104, 33, 200] : List Nat).getD 0 0)) ∧
    (2 ≤ 0 → (to_uppercase [104, 33, 200] 2).getD 0 0
      = ([104, 33, 200] : List Nat).getD 0 0) ∧
    (∀ b : Nat, b < 256 →
      ((97 ≤ b ∧ b ≤ 122) →
        toupperByte b = b - 32 ∧ 65 ≤ toupperByte b ∧ toupperByte b ≤ 90) ∧
      (¬(97 ≤ b ∧ b ≤ 122) → toupperByte b = b)) :=
  C2_to_uppercase_correct [104, 33, 200] 2 0 (by decide)

lemma sendAllGo_good (len : Nat) (hlen : len < U64) :
    ∀ (os : List SendRes) (total : Nat), total ≤ len → goodOracle len total os = true →
      ∃ log, sendAllGo len total os = some (len, log) ∧ tilesFrom len total log = true := by
  intro os
  induction os with
  | nil =>
    intro total hle hgood
    have h1 : len ≤ total := by simpa [goodOracle] using hgood
    have h2 : total = len := le_antisymm hle h1
    subst h2
    exact ⟨[], by simp [sendAllGo], by simp [tilesFrom]⟩
  | cons o rest ih =>
    intro total hle hgood
    by_cases h : len ≤ total
    · have h2 : total = len := le_antisymm hle h
      subst h2
      exact ⟨[], by simp [sendAllGo], by simp [tilesFrom]⟩
    · cases o with
      | eintr =>
        have hg : goodOracle len total rest = true := by
          simpa [goodOracle, h] using hgood
        obtain ⟨log, h1, h2⟩ := ih total hle hg
        exact ⟨log, by simpa [sendAllGo, h] using h1, h2⟩
      | zero => simp [goodOracle, h] at hgood
      | err => simp [goodOracle, h] at hgood
      | ok n =>
        have hg : (1 ≤ n ∧ n ≤ len - total) ∧ goodOracle len (total + n) rest = true := by
          simpa [goodOracle, h] using hgood
        obtain ⟨⟨h1, h2⟩, h3⟩ := hg
        have hsum : total + n ≤ len := by omega
        have hmod : (total + n) % U64 = total + n :=
          Nat.mod_eq_of_lt (by omega)
        obtain ⟨log, hrec, htile⟩ := ih (total + n) hsum h3
        refine ⟨(total, n) :: log, ?_, ?_⟩
        · have hne : ¬ n = 0 := by omega
          simp only [sendAllGo, if_neg h, hne, if_false, hmod, hrec, Option.map_some']
        · simp [tilesFrom, h1, htile]

/-! ## C4 -/

/-- C4: under the precondition that every `send` call either transfers at
least one byte (and at most what was requested) or is interrupted
(`EINTR`, retried transparently), `send_all` writes exactly the `len`
bytes, each successful transfer resuming at the first unwritten byte so
that the transfers tile `0..len-1` in order with no byte repeated or
skipped, and returns `len`; and whenever a `send` call transfers zero
bytes, the loop stops for this cycle and returns the bytes written so far
(a partial result, not an error). -/
theorem C4_send_all_writes_all (len : Nat) (os : List SendRes)
    (hlen : len < 2 ^ 63) (hgood : goodOracle len 0 os = true) :
    (∃ log, sendAllGo len 0 os = some (len, log) ∧ tilesFrom len 0 log = true) ∧
    send_all len os = some (len : Int) ∧
    (∀ (total : Nat) (rest : List SendRes), total < len →
      sendAllGo len total (SendRes.zero :: rest) = some (total, [])) := by
  have hU : len < U64 := by
    have : (2 : Nat) ^ 63 < 2 ^ 64 := by norm_num
    unfold U64
    omega
  obtain ⟨log, h1, h2⟩ := sendAllGo_good len hU os 0 (Nat.zero_le len) hgood
  refine ⟨⟨log, h1, h2⟩, ?_, ?_⟩
  · have ht : toSsize len = (len : Int) := by
      simp only [toSsize]
      rw [if_pos hlen]
    simp [send_all, h1, ht]
  · intro total rest hlt
    simp [sendAllGo, Nat.not_le.mpr hlt]

/-- Witness for C4: `len = 2`, sends transferring 1 byte, interrupted
once, then 1 byte. -/
theorem C4_witness :
    ((∃ log, sendAllGo 2 0 [SendRes.ok 1, SendRes.eintr, SendRes.ok 1] = some (2, log) ∧
        tilesFrom 2 0 log = true) ∧
      send_all 2 [SendRes.ok 1, SendRes.eintr, SendRes.ok 1] = some (2 : Int) ∧
      (∀ (total : Nat) (rest : List SendRes), total < 2 →
        sendAllGo 2 total (SendRes.zero :: rest) = some (total, []))) :=
  C4_send_all_writes_all 2 [SendRes.ok 1, SendRes.eintr, SendRes.ok 1]
    (by norm_num) (by decide)

/-! ## C5 -/

/-- C5 (refuted by the code, see `send_all` in server.c): when a `send`
call fails with `errno ≠ EINTR` after one byte has already been written
(`len = 3`, oracle `ok 1, err, ok 1, ok 1, ok 1`), the loop does NOT stop:
`total += (size_t)(-1)` wraps `total` from 1 back to 0 (the running count
decreases), the loop keeps calling `send`, and byte 0 is transferred a
second time, as the transfer log `(0,1), (0,1), (1,1), (2,1)` shows — it
does not tile the range.  With the oracle cut off right after the error,
the loop is still running (result `none`), i.e. further send attempts
follow the error. -/
theorem C5_error_does_not_stop_loop :
    sendAllGo 3 0 [SendRes.ok 1, SendRes.err, SendRes.ok 1, SendRes.ok 1, SendRes.ok 1]
      = some (3, [(0, 1), (0, 1), (1, 1), (2, 1)]) ∧
    tilesFrom 3 0 [(0, 1), (0, 1), (1, 1), (2, 1)] = false ∧
    sendAllGo 3 0 [SendRes.ok 1, SendRes.err] = none := by
  refine ⟨by rfl, by rfl, by rfl⟩

lemma handlerLoop_shape :
    ∀ (oracle : List (RecvRes × List SendRes)) (evs : List HEv),
      handlerLoop oracle = some evs →
      ∃ body, evs = body ++ [HEv.closedFd, HEv.decremented] ∧
        HEv.closedFd ∉ body ∧ HEv.decremented ∉ body ∧ HEv.incremented ∉ body := by
  intro oracle
  induction oracle with
  | nil => intro evs h; simp [handlerLoop] at h
  | cons c rest ih =>
    obtain ⟨r, s⟩ := c
    intro evs h
    cases r with
    | eintr => exact ih evs (by simpa [handlerLoop] using h)
    | err =>
      have he : evs = [HEv.recvErrLogged, HEv.closedFd, HEv.decremented] := by
        simpa [handlerLoop] using h.symm
      exact ⟨[HEv.recvErrLogged], by simp [he], by simp, by simp, by simp⟩
    | zero =>
      have he : evs = [HEv.closedFd, HEv.decremented] := by
        simpa [handlerLoop] using h.symm
      exact ⟨[], by simp [he], by simp, by simp, by simp⟩
    | ok data =>
      by_cases hd : data.length = 0
      · have he : evs = [HEv.closedFd, HEv.decremented] := by
          simpa [handlerLoop, hd] using h.symm
        exact ⟨[], by simp [he], by simp, by simp, by simp⟩
      · rcases hw : send_all data.length s with _ | w
        · simp [handlerLoop, hd, hw] at h
        · by_cases hneg : w < 0
          · have he : evs = [HEv.recvd data.length, HEv.sendCall w, HEv.sendErrLogged,
                HEv.closedFd, HEv.decremented] := by
              simpa [handlerLoop, hd, hw, hneg] using h.symm
            exact ⟨[HEv.recvd data.length, HEv.sendCall w, HEv.sendErrLogged],
              by simp [he], by simp, by simp, by simp⟩
          · have hmap : (handlerLoop rest).map
                (fun evs₂ => HEv.recvd data.length :: HEv.sendCall w :: evs₂) = some evs := by
              simpa [handlerLoop, hd, hw, hneg] using h
            obtain ⟨evs₂, hrest, hcons⟩ := Option.map_eq_some'.mp hmap
            obtain ⟨body, hb, hc, hdec, hinc⟩ := ih evs₂ hrest
            refine ⟨HEv.recvd data.length :: HEv.sendCall w :: body, ?_, ?_, ?_, ?_⟩
            · rw [← hcons, hb]; simp
            · simp [hc]
            · simp [hdec]
            · simp [hinc]

/-! ## C3 -/

/-- C3: every completed run of `client_thread` emits `close(fd)` followed
by `dec_clients()` exactly once, as the final two events, on every exit
path of the loop (orderly shutdown, read error, or write failure): the
close and the decrement occur exactly once each, in that order, never
skipped and never repeated. -/
theorem C3_finalization_exactly_once (oracle : List (RecvRes × List SendRes))
    (evs : List HEv) (h : handlerRun oracle = some evs) :
    ∃ body, evs = HEv.incremented :: (body ++ [HEv.closedFd, HEv.decremented]) ∧
      HEv.closedFd ∉ body ∧ HEv.decremented ∉ body ∧
      evs.count HEv.closedFd = 1 ∧ evs.count HEv.decremented = 1 := by
  obtain ⟨evs₂, hloop, hcons⟩ := Option.map_eq_some'.mp h
  obtain ⟨body, hb, hc, hdec, _⟩ := handlerLoop_shape oracle evs₂ hloop
  refine ⟨body, by rw [← hcons, hb], hc, hdec, ?_, ?_⟩
  · rw [← hcons, hb]
    simp [List.count_cons, List.count_append, List.count_eq_zero.mpr hc]
  · rw [← hcons, hb]
    simp [List.count_cons, List.count_append, List.count_eq_zero.mpr hdec]

/-- Witness for C3: one successful echo cycle then orderly shutdown. -/
theorem C3_witness :
    ∃ body, [HEv.incremented, HEv.recvd 1, HEv.sendCall 1, HEv.closedFd, HEv.decremented]
        = HEv.incremented :: (body ++ [HEv.closedFd, HEv.decremented]) ∧
      HEv.closedFd ∉ body ∧ HEv.decremented ∉ body ∧
      List.count HEv.closedFd
        [HEv.incremented, HEv.recvd 1, HEv.sendCall 1, HEv.closedFd, HEv.decremented] = 1 ∧
      List.count HEv.decremented
        [HEv.incremented, HEv.recvd 1, HEv.sendCall 1, HEv.closedFd, HEv.decremented] = 1 :=
  C3_finalization_exactly_once [(RecvRes.ok [104], [SendRes.ok 1]), (RecvRes.zero, [])]
    [HEv.incremented, HEv.recvd 1, HEv.sendCall 1, HEv.closedFd, HEv.decremented] (by rfl)

/-! ## C8 -/

/-- C8: a `recv` returning zero bytes makes the handler leave its loop
normally — no error is logged, no `send` call is made and no response
event is emitted for that cycle, and the very next events are the
finalization `close(fd)`/`dec_clients()`; and over any completed handler
run the net effect on the counter is zero (the decrement returns it to its
prior value). -/
theorem C8_zero_read_normal_exit :
    (∀ (s : List SendRes) (rest : List (RecvRes × List SendRes)),
      handlerLoop ((RecvRes.zero, s) :: rest) = some [HEv.closedFd, HEv.decremented]) ∧
    (∀ (oracle : List (RecvRes × List SendRes)) (evs : List HEv),
      handlerRun oracle = some evs → counterDelta evs = 0) := by
  constructor
  · intro s rest; rfl
  · intro oracle evs h
    obtain ⟨evs₂, hloop, hcons⟩ := Option.map_eq_some'.mp h
    obtain ⟨body, hb, _, hdec, hinc⟩ := handlerLoop_shape oracle evs₂ hloop
    rw [← hcons, hb]
    have hbody : (body.map evDelta).sum = 0 := by
      apply List.sum_eq_zero
      intro x hx
      obtain ⟨e, he, hfe⟩ := List.mem_map.mp hx
      cases e with
      | incremented => exact absurd he hinc
      | decremented => exact absurd he hdec
      | recvd n => simp [evDelta] at hfe; omega
      | sendCall w => simp [evDelta] at hfe; omega
      | recvErrLogged => simp [evDelta] at hfe; omega
      | sendErrLogged => simp [evDelta] at hfe; omega
      | closedFd => simp [evDelta] at hfe; omega
    simp [counterDelta, evDelta, hbody]

/-- Witness for C8: the handler of a connection whose peer closes at once. -/
theorem C8_witness :
    counterDelta [HEv.incremented, HEv.closedFd, HEv.decremented] = 0 :=
  C8_zero_read_normal_exit.2 [(RecvRes.zero, [])]
    [HEv.incremented, HEv.closedFd, HEv.decremented] (by rfl)

/-! ## C9 -/

/-- C9: when started with a port argument, a parsed value outside 1..65535
makes `main` exit immediately with the usage diagnostic and exit status
`EXIT_FAILURE` (1, non-zero), before any socket is created; a parsed value
in range proceeds to `socket`/`bind`/`listen` with that port and never
prints the usage message. -/
theorem C9_port_range_check (p : Int) :
    (¬(1 ≤ p ∧ p ≤ 65535) →
      mainStartup (some p) = ([MainEv.sigpipeIgnored, MainEv.usageExitFailure], some 1) ∧
      MainEv.socketCreated ∉ (mainStartup (some p)).1 ∧
      (mainStartup (some p)).2 ≠ some 0) ∧
    ((1 ≤ p ∧ p ≤ 65535) →
      mainStartup (some p) =
        ([MainEv.sigpipeIgnored, MainEv.socketCreated, MainEv.boundLoopback p,
          MainEv.listening], none) ∧
      MainEv.usageExitFailure ∉ (mainStartup (some p)).1) := by
  constructor
  · intro hbad
    have hc : p ≤ 0 ∨ 65535 < p := by omega
    rw [mainStartup, if_pos hc]
    refine ⟨rfl, by simp, by simp⟩
  · intro hok
    have hc : ¬(p ≤ 0 ∨ 65535 < p) := by omega
    rw [mainStartup, if_neg hc]
    refine ⟨rfl, by simp⟩

/-- Witness for C9 at the out-of-range value 0 and the in-range value 8080. -/
theorem C9_witness :
    mainStartup (some 0) = ([MainEv.sigpipeIgnored, MainEv.usageExitFailure], some 1) ∧
    mainStartup (some 8080) =
      ([MainEv.sigpipeIgnored, MainEv.socketCreated, MainEv.boundLoopback 8080,
        MainEv.listening], none) :=
  ⟨((C9_port_range_check 0).1 (by decide)).1, ((C9_port_range_check 8080).2 (by decide)).1⟩

/-! ## C10 -/

/-- C10: `main` installs `SIG_IGN` for SIGPIPE as its very first action,
before anything else, for every invocation; under the modelled POSIX
semantics, a `send` to a peer that already closed then surfaces as an
error return inside the calling handler instead of terminating the
process (which the default disposition would do); and a handler whose
`send` fails that way logs the error and terminates only itself, running
its own finalization (`close(fd)`, `dec_clients()`). -/
theorem C10_sigpipe_ignored :
    (∀ arg : Option Int, (mainStartup arg).1.head? = some MainEv.sigpipeIgnored) ∧
    peerClosedSend SigDisposition.ign = PeerClosedSendOutcome.errorReturn ∧
    peerClosedSend SigDisposition.dfl = PeerClosedSendOutcome.processTerminated ∧
    (∀ (data : List Nat) (rest : List (RecvRes × List SendRes)),
      1 ≤ data.length → data.length ≤ BUF_SIZE →
      handlerLoop ((RecvRes.ok data, [SendRes.err]) :: rest) =
        some [HEv.recvd data.length, HEv.sendCall (-1), HEv.sendErrLogged,
              HEv.closedFd, HEv.decremented]) := by
  refine ⟨?_, rfl, rfl, ?_⟩
  · intro arg
    cases arg with
    | none => rfl
    | some p =>
      rw [mainStartup]
      by_cases hc : p ≤ 0 ∨ 65535 < p
      · rw [if_pos hc]; rfl
      · rw [if_neg hc]; rfl
  · intro data rest h1 h2
    have hmod : (0 + (U64 - 1)) % U64 = U64 - 1 := by
      apply Nat.mod_eq_of_lt
      simp [U64]
    have hlen : data.length ≤ U64 - 1 := by
      have : BUF_SIZE ≤ U64 - 1 := by norm_num [BUF_SIZE, U64]
      omega
    have hsend : send_all data.length [SendRes.err] = some (-1 : Int) := by
      rw [send_all, sendAllGo, if_neg (by omega : ¬ data.length ≤ 0)]
      show (sendAllGo data.length ((0 + (U64 - 1)) % U64) []).map _ = _
      rw [hmod, sendAllGo, if_pos hlen]
      have hU : ¬ (U64 - 1 < 2 ^ 63) := by norm_num [U64]
      simp only [Option.map_some', toSsize, if_neg hU]
      norm_num [U64]
    rw [handlerLoop]
    simp only [if_neg (by omega : ¬ data.length = 0), hsend]
    norm_num

/-- Witness for C10: a one-byte message whose write fails with `EPIPE`. -/
theorem C10_witness :
    handlerLoop [(RecvRes.ok [104], [SendRes.err])] =
      some [HEv.recvd 1, HEv.sendCall (-1), HEv.sendErrLogged,
            HEv.closedFd, HEv.decremented] :=
  C10_sigpipe_ignored.2.2.2 [104] [] (by decide) (by norm_num [BUF_SIZE])

/-! ## Invariant lemmas for the counter machine -/

lemma contrib_nonneg (pc : Nat) : 0 ≤ contrib pc := by
  unfold contrib; split <;> norm_num

lemma contrib_le_one (pc : Nat) : contrib pc ≤ 1 := by
  unfold contrib; split <;> norm_num

lemma gsum_cons (a : CThread) (l : List CThread) :
    gsum (a :: l) = contrib a.pc + gsum l := by
  simp [gsum]

lemma gsum_set (ths : List CThread) (t : Nat) (th th' : CThread)
    (h : ths[t]? = some th) :
    gsum (ths.set t th') = gsum ths - contrib th.pc + contrib th'.pc := by
  induction ths generalizing t with
  | nil => simp at h
  | cons a rest ih =>
    cases t with
    | zero =>
      have ha : a = th := by simpa using h
      subst ha
      simp [List.set, gsum_cons]
      ring
    | succ u =>
      have hr : rest[u]? = some th := by simpa using h
      have := ih u hr
      simp only [List.set, gsum_cons, this]
      ring

lemma gsum_nonneg (ths : List CThread) : 0 ≤ gsum ths := by
  induction ths with
  | nil => simp [gsum]
  | cons a rest ih =>
    rw [gsum_cons]
    have := contrib_nonneg a.pc
    omega

lemma gsum_le_length (ths : List CThread) : gsum ths ≤ (ths.length : Int) := by
  induction ths with
  | nil => simp [gsum]
  | cons a rest ih =>
    rw [gsum_cons]
    have := contrib_le_one a.pc
    simp only [List.length_cons]
    push_cast
    omega

lemma gsum_eq_activeCount (ths : List CThread) :
    gsum ths = (ths.countP (fun th => activeAt th.pc) : Int) := by
  induction ths with
  | nil => simp [gsum, activeCount]
  | cons a rest ih =>
    rw [gsum_cons, List.countP_cons]
    by_cases h : 3 ≤ a.pc ∧ a.pc ≤ 8
    · simp [contrib, activeAt, h, ih]
      omega
    · simp [contrib, activeAt, h, ih]

lemma gsum_eq_zero (ths : List CThread) (h : ∀ th ∈ ths, contrib th.pc = 0) :
    gsum ths = 0 := by
  apply List.sum_eq_zero
  intro x hx
  obtain ⟨th, hm, hfx⟩ := List.mem_map.mp hx
  rw [← hfx]
  exact h th hm

lemma bound_set (ths : List CThread) (t : Nat) (th' : CThread)
    (hb : ∀ th ∈ ths, th.pc ≤ 12) (h12 : th'.pc ≤ 12) :
    ∀ th ∈ ths.set t th', th.pc ≤ 12 := by
  intro th hm
  rcases List.mem_or_eq_of_mem_set hm with h | h
  · exact hb th h
  · subst h; exact h12

lemma inv_owner_of_mid (s : CState) (hinv : Inv s) (t : Nat) (th : CThread)
    (hth : s.threads[t]? = some th) (hmid : midPc th.pc) :
    s.owner = some t ∧
    (∀ u, u ≠ t → ∀ (th₂ : CThread), s.threads[u]? = some th₂ → ¬ midPc th₂.pc) ∧
    (th.pc = 2 → th.reg = s.g) ∧ (th.pc = 8 → th.reg = s.g) ∧
    (th.pc = 4 → th.now = s.g) ∧ (th.pc = 10 → th.now = s.g) := by
  obtain ⟨-, -, how⟩ := hinv
  rcases howner : s.owner with _ | u
  · rw [OwnerInv, howner] at how
    exact absurd hmid (how t th hth)
  · rw [OwnerInv, howner] at how
    obtain ⟨th₀, h₀, hmid₀, huniq, hc2, hc8, hc4, hc10⟩ := how
    by_cases hut : u = t
    · subst hut
      have hEq : th₀ = th := by rw [h₀] at hth; exact Option.some.inj hth
      subst hEq
      exact ⟨rfl, huniq, hc2, hc8, hc4, hc10⟩
    · exact absurd hmid (huniq t (fun hEq => hut hEq.symm) th hth)

theorem inv_step (s : CState) (t : Nat) (hinv : Inv s) : Inv (stepThread s t) := by
  obtain ⟨g, owner, ths, reps⟩ := s
  rcases hth : ths[t]? with _ | th
  · have hid : stepThread ⟨g, owner, ths, reps⟩ t = ⟨g, owner, ths, reps⟩ := by
      simp [stepThread, hth]
    rw [hid]; exact hinv
  obtain ⟨pc, reg, now⟩ := th
  have hmem : (⟨pc, reg, now⟩ : CThread) ∈ ths := List.mem_iff_getElem?.mpr ⟨t, hth⟩
  have hlt : t < ths.length := (List.getElem?_eq_some.mp hth).1
  have hset : ∀ (th' : CThread), (ths.set t th')[t]? = some th' :=
    fun th' => List.getElem?_set_eq_of_lt th' hlt
  have hset_ne : ∀ (u : Nat), u ≠ t → ∀ (th' : CThread), (ths.set t th')[u]? = ths[u]? :=
    fun u hu th' => List.getElem?_set_ne (Ne.symm hu)
  obtain ⟨hg, hbound, how⟩ := hinv
  have hpc : pc ≤ 12 := hbound _ hmem
  interval_cases pc
  · -- pc = 0: pthread_mutex_lock in inc_clients
    rcases howner : owner with _ | u
    · have hstep : stepThread ⟨g, none, ths, reps⟩ t
          = ⟨g, some t, ths.set t ⟨1, reg, now⟩, reps⟩ := by
        simp [stepThread, hth]
      rw [hstep]
      rw [OwnerInv, howner] at how
      refine ⟨?_, bound_set ths t _ hbound (by norm_num), ?_⟩
      · rw [gsum_set ths t ⟨0, reg, now⟩ ⟨1, reg, now⟩ hth]
        simpa [contrib] using hg
      · unfold OwnerInv
        refine ⟨⟨1, reg, now⟩, hset _, by norm_num [midPc], ?_, by simp, by simp,
          by simp, by simp⟩
        intro u hu th₂ h2
        rw [hset_ne u hu] at h2
        exact how u th₂ h2
    · have hstep : stepThread ⟨g, some u, ths, reps⟩ t = ⟨g, some u, ths, reps⟩ := by
        simp [stepThread, hth]
      rw [hstep]
      exact ⟨hg, hbound, howner ▸ how⟩
  · -- pc = 1: read g_connected_clients (first half of g++)
    obtain ⟨howner, huniq, -, -, -, -⟩ :=
      inv_owner_of_mid ⟨g, owner, ths, reps⟩ ⟨hg, hbound, how⟩ t ⟨1, reg, now⟩ hth
        (by norm_num [midPc])
    subst howner
    have hstep : stepThread ⟨g, some t, ths, reps⟩ t
        = ⟨g, some t, ths.set t ⟨2, g, now⟩, reps⟩ := by
      simp [stepThread, hth]
    rw [hstep]
    refine ⟨?_, bound_set ths t _ hbound (by norm_num), ?_⟩
    · rw [gsum_set ths t ⟨1, reg, now⟩ ⟨2, g, now⟩ hth]
      simpa [contrib] using hg
    · unfold OwnerInv
      refine ⟨⟨2, g, now⟩, hset _, by norm_num [midPc], ?_, by simp, by simp,
        by simp, by simp⟩
      intro u hu th₂ h2
      rw [hset_ne u hu] at h2
      exact huniq u hu th₂ h2
  · -- pc = 2: write g := reg + 1 (second half of g++)
    obtain ⟨howner, huniq, hc2, -, -, -⟩ :=
      inv_owner_of_mid ⟨g, owner, ths, reps⟩ ⟨hg, hbound, how⟩ t ⟨2, reg, now⟩ hth
        (by norm_num [midPc])
    subst howner
    have hreg : reg = g := hc2 rfl
    have hstep : stepThread ⟨g, some t, ths, reps⟩ t
        = ⟨reg + 1, some t, ths.set t ⟨3, reg, now⟩, reps⟩ := by
      simp [stepThread, hth]
    rw [hstep]
    refine ⟨?_, bound_set ths t _ hbound (by norm_num), ?_⟩
    · rw [gsum_set ths t ⟨2, reg, now⟩ ⟨3, reg, now⟩ hth]
      have hc0 : contrib (⟨2, reg, now⟩ : CThread).pc = 0 := by norm_num [contrib]
      have hc1 : contrib (⟨3, reg, now⟩ : CThread).pc = 1 := by norm_num [contrib]
      rw [hc0, hc1]
      show reg + 1 = _
      have hg2 : g = gsum ths := hg
      have hr2 : reg = g := hreg
      omega
    · unfold OwnerInv
      refine ⟨⟨3, reg, now⟩, hset _, by norm_num [midPc], ?_, by simp, by simp,
        by simp, by simp⟩
      intro u hu th₂ h2
      rw [hset_ne u hu] at h2
      exact huniq u hu th₂ h2
  · -- pc = 3: now := g (snapshot inside the critical section)
    obtain ⟨howner, huniq, -, -, -, -⟩ :=
      inv_owner_of_mid ⟨g, owner, ths, reps⟩ ⟨hg, hbound, how⟩ t ⟨3, reg, now⟩ hth
        (by norm_num [midPc])
    subst howner
    have hstep : stepThread ⟨g, some t, ths, reps⟩ t
        = ⟨g, some t, ths.set t ⟨4, reg, g⟩, reps⟩ := by
      simp [stepThread, hth]
    rw [hstep]
    refine ⟨?_, bound_set ths t _ hbound (by norm_num), ?_⟩
    · rw [gsum_set ths t ⟨3, reg, now⟩ ⟨4, reg, g⟩ hth]
      simpa [contrib] using hg
    · unfold OwnerInv
      refine ⟨⟨4, reg, g⟩, hset _, by norm_num [midPc], ?_, by simp, by simp,
        by simp, by simp⟩
      intro u hu th₂ h2
      rw [hset_ne u hu] at h2
      exact huniq u hu th₂ h2
  · -- pc = 4: pthread_mutex_unlock in inc_clients
    obtain ⟨howner, huniq, -, -, -, -⟩ :=
      inv_owner_of_mid ⟨g, owner, ths, reps⟩ ⟨hg, hbound, how⟩ t ⟨4, reg, now⟩ hth
        (by norm_num [midPc])
    subst howner
    have hstep : stepThread ⟨g, some t, ths, reps⟩ t
        = ⟨g, none, ths.set t ⟨5, reg, now⟩, reps⟩ := by
      simp [stepThread, hth]
    rw [hstep]
    refine ⟨?_, bound_set ths t _ hbound (by norm_num), ?_⟩
    · rw [gsum_set ths t ⟨4, reg, now⟩ ⟨5, reg, now⟩ hth]
      simpa [contrib] using hg
    · unfold OwnerInv
      intro u th₂ h2
      by_cases hut : u = t
      · subst hut
        rw [hset] at h2
        have hEq : th₂ = ⟨5, reg, now⟩ := (Option.some.inj h2).symm
        subst hEq
        norm_num [midPc]
      · rw [hset_ne u hut] at h2
        exact huniq u hut th₂ h2
  · -- pc = 5: fprintf of now (after the unlock)
    have hstep : stepThread ⟨g, owner, ths, reps⟩ t
        = ⟨g, owner, ths.set t ⟨6, reg, now⟩, reps ++ [(t, now)]⟩ := by
      simp [stepThread, hth]
    rw [hstep]
    refine ⟨?_, bound_set ths t _ hbound (by norm_num), ?_⟩
    · rw [gsum_set ths t ⟨5, reg, now⟩ ⟨6, reg, now⟩ hth]
      simpa [contrib] using hg
    · rcases howner : owner with _ | u
      · rw [OwnerInv, howner] at how
        unfold OwnerInv
        intro u th₂ h2
        by_cases hut : u = t
        · subst hut
          rw [hset] at h2
          have hEq : th₂ = ⟨6, reg, now⟩ := (Option.some.inj h2).symm
          subst hEq
          norm_num [midPc]
        · rw [hset_ne u hut] at h2
          exact how u th₂ h2
      · rw [OwnerInv, howner] at how
        obtain ⟨th₀, h₀, hmid₀, huniq₀, hc2, hc8, hc4, hc10⟩ := how
        have hut : u ≠ t := by
          intro hEq
          subst hEq
          dsimp only at h₀
          rw [h₀] at hth
          have hEq2 := Option.some.inj hth
          rw [hEq2] at hmid₀
          norm_num [midPc] at hmid₀
        unfold OwnerInv
        refine ⟨th₀, ?_, hmid₀, ?_, hc2, hc8, hc4, hc10⟩
        · rw [hset_ne u hut]; exact h₀
        · intro v hv th₂ h2
          by_cases hvt : v = t
          · subst hvt
            rw [hset] at h2
            have hEq : th₂ = ⟨6, reg, now⟩ := (Option.some.inj h2).symm
            subst hEq
            norm_num [midPc]
          · rw [hset_ne v hvt] at h2
            exact huniq₀ v hv th₂ h2
  · -- pc = 6: pthread_mutex_lock in dec_clients
    rcases howner : owner with _ | u
    · have hstep : stepThread ⟨g, none, ths, reps⟩ t
          = ⟨g, some t, ths.set t ⟨7, reg, now⟩, reps⟩ := by
        simp [stepThread, hth]
      rw [hstep]
      rw [OwnerInv, howner] at how
      refine ⟨?_, bound_set ths t _ hbound (by norm_num), ?_⟩
      · rw [gsum_set ths t ⟨6, reg, now⟩ ⟨7, reg, now⟩ hth]
        simpa [contrib] using hg
      · unfold OwnerInv
        refine ⟨⟨7, reg, now⟩, hset _, by norm_num [midPc], ?_, by simp, by simp,
          by simp, by simp⟩
        intro u hu th₂ h2
        rw [hset_ne u hu] at h2
        exact how u th₂ h2
    · have hstep : stepThread ⟨g, some u, ths, reps⟩ t = ⟨g, some u, ths, reps⟩ := by
        simp [stepThread, hth]
      rw [hstep]
      exact ⟨hg, hbound, howner ▸ how⟩
  · -- pc = 7: read g_connected_clients (first half of g--)
    obtain ⟨howner, huniq, -, -, -, -⟩ :=
      inv_owner_of_mid ⟨g, owner, ths, reps⟩ ⟨hg, hbound, how⟩ t ⟨7, reg, now⟩ hth
        (by norm_num [midPc])
    subst howner
    have hstep : stepThread ⟨g, some t, ths, reps⟩ t
        = ⟨g, some t, ths.set t ⟨8, g, now⟩, reps⟩ := by
      simp [stepThread, hth]
    rw [hstep]
    refine ⟨?_, bound_set ths t _ hbound (by norm_num), ?_⟩
    · rw [gsum_set ths t ⟨7, reg, now⟩ ⟨8, g, now⟩ hth]
      simpa [contrib] using hg
    · unfold OwnerInv
      refine ⟨⟨8, g, now⟩, hset _, by norm_num [midPc], ?_, by simp, by simp,
        by simp, by simp⟩
      intro u hu th₂ h2
      rw [hset_ne u hu] at h2
      exact huniq u hu th₂ h2
  · -- pc = 8: write g := reg - 1 (second half of g--)
    obtain ⟨howner, huniq, -, hc8, -, -⟩ :=
      inv_owner_of_mid ⟨g, owner, ths, reps⟩ ⟨hg, hbound, how⟩ t ⟨8, reg, now⟩ hth
        (by norm_num [midPc])
    subst howner
    have hreg : reg = g := hc8 rfl
    have hstep : stepThread ⟨g, some t, ths, reps⟩ t
        = ⟨reg - 1, some t, ths.set t ⟨9, reg, now⟩, reps⟩ := by
      simp [stepThread, hth]
    rw [hstep]
    refine ⟨?_, bound_set ths t _ hbound (by norm_num), ?_⟩
    · rw [gsum_set ths t ⟨8, reg, now⟩ ⟨9, reg, now⟩ hth]
      have hc0 : contrib (⟨8, reg, now⟩ : CThread).pc = 1 := by norm_num [contrib]
      have hc1 : contrib (⟨9, reg, now⟩ : CThread).pc = 0 := by norm_num [contrib]
      rw [hc0, hc1]
      show reg - 1 = _
      have hg2 : g = gsum ths := hg
      have hr2 : reg = g := hreg
      omega
    · unfold OwnerInv
      refine ⟨⟨9, reg, now⟩, hset _, by norm_num [midPc], ?_, by simp, by simp,
        by simp, by simp⟩
      intro u hu th₂ h2
      rw [hset_ne u hu] at h2
      exact huniq u hu th₂ h2
  · -- pc = 9: now := g (snapshot inside the critical section)
    obtain ⟨howner, huniq, -, -, -, -⟩ :=
      inv_owner_of_mid ⟨g, owner, ths, reps⟩ ⟨hg, hbound, how⟩ t ⟨9, reg, now⟩ hth
        (by norm_num [midPc])
    subst howner
    have hstep : stepThread ⟨g, some t, ths, reps⟩ t
        = ⟨g, some t, ths.set t ⟨10, reg, g⟩, reps⟩ := by
      simp [stepThread, hth]
    rw [hstep]
    refine ⟨?_, bound_set ths t _ hbound (by norm_num), ?_⟩
    · rw [gsum_set ths t ⟨9, reg, now⟩ ⟨10, reg, g⟩ hth]
      simpa [contrib] using hg
    · unfold OwnerInv
      refine ⟨⟨10, reg, g⟩, hset _, by norm_num [midPc], ?_, by simp, by simp,
        by simp, by simp⟩
      intro u hu th₂ h2
      rw [hset_ne u hu] at h2
      exact huniq u hu th₂ h2
  · -- pc = 10: pthread_mutex_unlock in dec_clients
    obtain ⟨howner, huniq, -, -, -, -⟩ :=
      inv_owner_of_mid ⟨g, owner, ths, reps⟩ ⟨hg, hbound, how⟩ t ⟨10, reg, now⟩ hth
        (by norm_num [midPc])
    subst howner
    have hstep : stepThread ⟨g, some t, ths, reps⟩ t
        = ⟨g, none, ths.set t ⟨11, reg, now⟩, reps⟩ := by
      simp [stepThread, hth]
    rw [hstep]
    refine ⟨?_, bound_set ths t _ hbound (by norm_num), ?_⟩
    · rw [gsum_set ths t ⟨10, reg, now⟩ ⟨11, reg, now⟩ hth]
      simpa [contrib] using hg
    · unfold OwnerInv
      intro u th₂ h2
      by_cases hut : u = t
      · subst hut
        rw [hset] at h2
        have hEq : th₂ = ⟨11, reg, now⟩ := (Option.some.inj h2).symm
        subst hEq
        norm_num [midPc]
      · rw [hset_ne u hut] at h2
        exact huniq u hut th₂ h2
  · -- pc = 11: fprintf of now (after the unlock)
    have hstep : stepThread ⟨g, owner, ths, reps⟩ t
        = ⟨g, owner, ths.set t ⟨12, reg, now⟩, reps ++ [(t, now)]⟩ := by
      simp [stepThread, hth]
    rw [hstep]
    refine ⟨?_, bound_set ths t _ hbound (by norm_num), ?_⟩
    · rw [gsum_set ths t ⟨11, reg, now⟩ ⟨12, reg, now⟩ hth]
      simpa [contrib] using hg
    · rcases howner : owner with _ | u
      · rw [OwnerInv, howner] at how
        unfold OwnerInv
        intro u th₂ h2
        by_cases hut : u = t
        · subst hut
          rw [hset] at h2
          have hEq : th₂ = ⟨12, reg, now⟩ := (Option.some.inj h2).symm
          subst hEq
          norm_num [midPc]
        · rw [hset_ne u hut] at h2
          exact how u th₂ h2
      · rw [OwnerInv, howner] at how
        obtain ⟨th₀, h₀, hmid₀, huniq₀, hc2, hc8, hc4, hc10⟩ := how
        have hut : u ≠ t := by
          intro hEq
          subst hEq
          dsimp only at h₀
          rw [h₀] at hth
          have hEq2 := Option.some.inj hth
          rw [hEq2] at hmid₀
          norm_num [midPc] at hmid₀
        unfold OwnerInv
        refine ⟨th₀, ?_, hmid₀, ?_, hc2, hc8, hc4, hc10⟩
        · rw [hset_ne u hut]; exact h₀
        · intro v hv th₂ h2
          by_cases hvt : v = t
          · subst hvt
            rw [hset] at h2
            have hEq : th₂ = ⟨12, reg, now⟩ := (Option.some.inj h2).symm
            subst hEq
            norm_num [midPc]
          · rw [hset_ne v hvt] at h2
            exact huniq₀ v hv th₂ h2
  · -- pc = 12: thread finished, no step
    have hid : stepThread ⟨g, owner, ths, reps⟩ t = ⟨g, owner, ths, reps⟩ := by
      simp [stepThread, hth]
    rw [hid]
    exact ⟨hg, hbound, how⟩

theorem inv_init (n : Nat) : Inv (initState n) := by
  refine ⟨?_, ?_, ?_⟩
  · show (0 : Int) = gsum (List.replicate n ⟨0, 0, 0⟩)
    have : gsum (List.replicate n ⟨0, 0, 0⟩) = 0 := by
      apply gsum_eq_zero
      intro th hm
      rw [List.eq_of_mem_replicate hm]
      norm_num [contrib]
    omega
  · intro th hm
    rw [List.eq_of_mem_replicate hm]
    norm_num
  · show OwnerInv ⟨0, none, List.replicate n ⟨0, 0, 0⟩, []⟩
    unfold OwnerInv
    intro u th₂ h2
    have hm : th₂ ∈ List.replicate n (⟨0, 0, 0⟩ : CThread) :=
      List.mem_iff_getElem?.mpr ⟨u, h2⟩
    rw [List.eq_of_mem_replicate hm]
    norm_num [midPc]

theorem inv_exec (s : CState) (sched : List Nat) (hinv : Inv s) :
    Inv (exec s sched) := by
  induction sched generalizing s with
  | nil => exact hinv
  | cons t rest ih => exact ih (stepThread s t) (inv_step s t hinv)

lemma length_stepThread (s : CState) (t : Nat) :
    (stepThread s t).threads.length = s.threads.length := by
  obtain ⟨g, owner, ths, reps⟩ := s
  rcases hth : ths[t]? with _ | th
  · simp [stepThread, hth]
  obtain ⟨pc, reg, now⟩ := th
  by_cases h : pc ≤ 12
  · interval_cases pc <;> simp [stepThread, hth] <;> split <;> simp
  · obtain ⟨m, hm⟩ := Nat.exists_eq_add_of_le (by omega : 13 ≤ pc)
    subst hm
    simp only [stepThread, hth]
    rw [Nat.add_comm 13 m]
    rfl

lemma length_exec (s : CState) (sched : List Nat) :
    (exec s sched).threads.length = s.threads.length := by
  induction sched generalizing s with
  | nil => rfl
  | cons t rest ih =>
    show (exec (stepThread s t) rest).threads.length = _
    rw [ih (stepThread s t), length_stepThread]

instance (s : CState) : Decidable (allDone s) := by
  unfold allDone; infer_instance

/-! ## C1 -/

/-- C1: for every number `n` of accepted connections (each with its handler
thread) and every interleaving of their counter operations,
`g_connected_clients` equals the number of handler threads that have
performed the increment of `inc_clients` but not yet the decrement of
`dec_clients`; it is never negative, never exceeds `n`, and once every
handler has finished it is back to its initial value 0. -/
theorem C1_counter_invariant (n : Nat) (sched : List Nat) :
    (exec (initState n) sched).g = (activeCount (exec (initState n) sched) : Int) ∧
    0 ≤ (exec (initState n) sched).g ∧
    (exec (initState n) sched).g ≤ (n : Int) ∧
    (allDone (exec (initState n) sched) → (exec (initState n) sched).g = 0) := by
  obtain ⟨hg, -, -⟩ := inv_exec (initState n) sched (inv_init n)
  have hlen : (exec (initState n) sched).threads.length = n := by
    rw [length_exec]; simp [initState]
  refine ⟨?_, ?_, ?_, ?_⟩
  · rw [hg, gsum_eq_activeCount]
    rfl
  · rw [hg]; exact gsum_nonneg _
  · rw [hg]
    have hb := gsum_le_length (exec (initState n) sched).threads
    rw [hlen] at hb
    exact hb
  · intro hd
    rw [hg]
    apply gsum_eq_zero
    intro th hm
    rw [hd th hm]
    norm_num [contrib]

/-- Witness for C1: one handler running to completion returns the counter
to 0. -/
theorem C1_witness :
    allDone (exec (initState 1) (List.replicate 12 0)) ∧
    (exec (initState 1) (List.replicate 12 0)).g = 0 :=
  ⟨by decide, (C1_counter_invariant 1 (List.replicate 12 0)).2.2.2 (by decide)⟩

/-! ## C6 -/

/-- C6: because each mutation's read-modify-write is confined to one
critical section of `g_clients_mtx` (the machine's lock step blocks while
another thread holds the mutex), no update is ever lost: for `n`
concurrent increment/decrement pairs, under every interleaving, every
value the counter takes (after any prefix of the schedule) lies in
`[0, n]`, and when all pairs have completed the counter is back at its
starting value 0. -/
theorem C6_no_lost_updates (n : Nat) (sched : List Nat) :
    (∀ pre, pre <+: sched →
      0 ≤ (exec (initState n) pre).g ∧ (exec (initState n) pre).g ≤ (n : Int)) ∧
    (allDone (exec (initState n) sched) → (exec (initState n) sched).g = 0) := by
  constructor
  · intro pre hpre
    obtain ⟨hg, -, -⟩ := inv_exec (initState n) pre (inv_init n)
    have hlen : (exec (initState n) pre).threads.length = n := by
      rw [length_exec]; simp [initState]
    constructor
    · rw [hg]; exact gsum_nonneg _
    · rw [hg]
      have hb := gsum_le_length (exec (initState n) pre).threads
      rw [hlen] at hb
      exact hb
  · intro hd
    obtain ⟨hg, -, -⟩ := inv_exec (initState n) sched (inv_init n)
    rw [hg]
    apply gsum_eq_zero
    intro th hm
    rw [hd th hm]
    norm_num [contrib]

set_option maxRecDepth 10000 in
/-- Witness for C6: two interleaved increment/decrement pairs. -/
theorem C6_witness :
    (0 ≤ (exec (initState 2) []).g ∧ (exec (initState 2) []).g ≤ (2 : Int)) ∧
    (exec (initState 2)
      [0, 0, 0, 0, 0, 1, 1, 1, 1, 1, 1, 0, 0, 0, 0, 0, 0, 0, 1, 1, 1, 1, 1, 1]).g = 0 :=
  ⟨(C6_no_lost_updates 2
      [0, 0, 0, 0, 0, 1, 1, 1, 1, 1, 1, 0, 0, 0, 0, 0, 0, 0, 1, 1, 1, 1, 1, 1]).1
      [] List.nil_prefix,
   (C6_no_lost_updates 2
      [0, 0, 0, 0, 0, 1, 1, 1, 1, 1, 1, 0, 0, 0, 0, 0, 0, 0, 1, 1, 1, 1, 1, 1]).2
      (by decide)⟩

/-! ## C7 -/

/-- C7 as stated is false of the code: `inc_clients`/`dec_clients` call
`fprintf` only AFTER `pthread_mutex_unlock`.  Concretely: after thread 0
runs its whole increment critical section and unlocks (5 steps), its
report is still pending (`reports = []`) while the mutex is free and the
counter is already 1; thread 1 then runs its complete `inc_clients`,
reporting 2; thread 0 reports 1 afterwards.  The reported sequence starts
`2, 1` although the serialization of the mutations produced the values
`1, 2` in that order — the reported sequence is not consistent with the
serialization of the increments. -/
theorem C7_report_outside_mutex_counterexample :
    (exec (initState 2) [0, 0, 0, 0, 0]).threads.map CThread.pc = [5, 0] ∧
    (exec (initState 2) [0, 0, 0, 0, 0]).owner = none ∧
    (exec (initState 2) [0, 0, 0, 0, 0]).g = 1 ∧
    (exec (initState 2) [0, 0, 0, 0, 0]).reports = [] ∧
    (exec (initState 2) [0, 0, 0, 0, 0, 1, 1, 1, 1, 1, 1]).reports = [(1, 2)] ∧
    (exec (initState 2) [0, 0, 0, 0, 0, 1, 1, 1, 1, 1, 1, 0]).reports
      = [(1, 2), (0, 1)] := by
  decide

/-- C7 amended: the post-mutation value is captured into the local `now`
immediately after the mutation and while still holding the mutex — at the
snapshot point, before the unlock, `now` equals the current counter value,
which is the thread's own post-mutation value — but it is written to
stderr only after the mutex is released, so each report line carries the
correct post-mutation value of its own mutation while the order of report
lines across threads need not match the serialization order of the
mutations. -/
theorem C7_snapshot_under_mutex (n : Nat) (sched : List Nat) (t : Nat) (th : CThread)
    (hth : (exec (initState n) sched).threads[t]? = some th) :
    (th.pc = 4 → (exec (initState n) sched).owner = some t ∧
      th.now = (exec (initState n) sched).g) ∧
    (th.pc = 10 → (exec (initState n) sched).owner = some t ∧
      th.now = (exec (initState n) sched).g) := by
  have hinv := inv_exec (initState n) sched (inv_init n)
  constructor
  · intro h4
    obtain ⟨howner, -, -, -, hc4, -⟩ :=
      inv_owner_of_mid _ hinv t th hth (by unfold midPc; omega)
    exact ⟨howner, hc4 h4⟩
  · intro h10
    obtain ⟨howner, -, -, -, -, hc10⟩ :=
      inv_owner_of_mid _ hinv t th hth (by unfold midPc; omega)
    exact ⟨howner, hc10 h10⟩

/-- Witness for C7 amended: after thread 0 of one thread takes its
snapshot (program counter 4), it still owns the mutex and its `now` equals
the counter. -/
theorem C7_witness :
    ((⟨4, 0, 1⟩ : CThread).pc = 4 →
      (exec (initState 1) [0, 0, 0, 0]).owner = some 0 ∧
      (⟨4, 0, 1⟩ : CThread).now = (exec (initState 1) [0, 0, 0, 0]).g) ∧
    ((⟨4, 0, 1⟩ : CThread).pc = 10 →
      (exec (initState 1) [0, 0, 0, 0]).owner = some 0 ∧
      (⟨4, 0, 1⟩ : CThread).now = (exec (initState 1) [0, 0, 0, 0]).g) :=
  C7_snapshot_under_mutex 1 [0, 0, 0, 0] 0 ⟨4, 0, 1⟩ (by decide)

end EchoServer
